import Mathlib

/-!
Shallow embedding of the cache-reconciliation engine of `src/YF.py`
(DataGrabber repository) together with proofs about the claims of its
natural-language specification.

Modelling conventions:

* Dates are day ordinals (`Nat`); the provider's `[start, end)` convention
  and all `+1 day` arithmetic of the source become `Nat` arithmetic.
* Prices are `Rat` (CSV floats with the validator's absolute tolerance).
* The Remote Series Provider (`yf.download` via `fetch_data`) is an explicit
  capability `fetch : Nat → Nat → List Row` returning already
  schema-normalized rows; the column-level normalization performed by
  `save_data` / `_tidy` is modelled separately on `RawFrame`.
* The filesystem is an association list from paths to file contents, and
  each procedure is modelled by the list of externally visible events it
  performs (provider calls, file writes, copies, removes, renames), executed
  against the filesystem by `runEvs`.  Fallible procedures return `Option`.
* `pandas.sort_values` is modelled as a stable insertion sort (`sortRows`);
  `drop_duplicates(subset=["Date"], keep="last")` on date-sorted data is the
  adjacent de-duplication `dedupKeepLast` keeping the later row.
-/

namespace DataGrabber

/-- One canonical data row of a symbol's CSV cache:
`Date, Open, High, Low, Close, Adj Close, Volume`. -/
structure Row where
  date : Nat
  open_ : Rat
  high : Rat
  low : Rat
  close : Rat
  adjClose : Rat
  volume : Int
deriving DecidableEq, Repr

/-- Path of the cache file, from `os.path.join("data", f"{symbol}.csv")`. -/
def csvPath (symbol : String) : String := "data/" ++ symbol ++ ".csv"

/-- Path of the temporary file used by `save_data`:
`os.path.join("data", f".{symbol}.csv.tmp")`. -/
def tmpPath (symbol : String) : String := "data/." ++ symbol ++ ".csv.tmp"

/-- Path of the backup file used by `cp_del`:
`os.path.join("data", f"{symbol}_OLD.csv")`. -/
def backupPath (symbol : String) : String := "data/" ++ symbol ++ "_OLD.csv"

/-- Externally visible events of the engine: provider calls and
filesystem mutations. -/
inductive Ev where
  | fetchCall (startD endD : Nat)
  | write (path : String) (content : List Row)
  | copy (src dst : String)
  | remove (path : String)
  | rename (src dst : String)
deriving DecidableEq, Repr

/-- The filesystem restricted to the engine's files: an association list
from paths to parsed CSV contents. -/
abbrev FS := List (String × List Row)

/-- Content of the file at a path, `none` when the file does not exist. -/
def FS.get (fs : FS) (p : String) : Option (List Row) :=
  (fs.find? (fun e => e.1 = p)).map (fun e => e.2)

/-- Delete the file at a path. -/
def FS.del (fs : FS) (p : String) : FS :=
  fs.filter (fun e => ¬ e.1 = p)

/-- Create or overwrite the file at a path. -/
def FS.set (fs : FS) (p : String) (c : List Row) : FS :=
  (p, c) :: FS.del fs p

/-- Effect of one event on the filesystem (provider calls have none;
`copy`/`rename` of a missing source leave the filesystem unchanged). -/
def applyEv (fs : FS) : Ev → FS
  | .fetchCall _ _ => fs
  | .write p c => fs.set p c
  | .copy s d =>
    match fs.get s with
    | some c => fs.set d c
    | none => fs
  | .remove p => fs.del p
  | .rename s d =>
    match fs.get s with
    | some c => (fs.del s).set d c
    | none => fs

/-- Run a list of events against the filesystem. -/
def runEvs (fs : FS) (evs : List Ev) : FS := evs.foldl applyEv fs

/-- The provider calls contained in an event list. -/
def fetchCalls (evs : List Ev) : List (Nat × Nat) :=
  evs.filterMap (fun e =>
    match e with
    | .fetchCall s t => some (s, t)
    | _ => none)

/-- Events of `save_data` (YF.py lines 91-109): on a non-empty frame, write
the rows to the temporary path and rename it onto the final path
(`os.replace`); on an empty frame, do nothing. -/
def save_data (rows : List Row) (symbol : String) : List Ev :=
  if rows.isEmpty then []
  else [Ev.write (tmpPath symbol) rows,
        Ev.rename (tmpPath symbol) (csvPath symbol)]

/-- Events of `cp_del` (YF.py lines 113-125): copy the cache file to the
backup path, then remove the original.  Callers guard on existence. -/
def cp_del (symbol : String) : List Ev :=
  [Ev.copy (csvPath symbol) (backupPath symbol),
   Ev.remove (csvPath symbol)]

/-- Stable insertion of a row into a date-sorted accumulator: the row goes
after every row whose date is ≤ its own. -/
def insertRow (r : Row) : List Row → List Row
  | [] => [r]
  | x :: xs => if x.date ≤ r.date then x :: insertRow r xs else r :: x :: xs

/-- Left fold of `insertRow`, processing rows in their original order. -/
def sortAux (acc : List Row) : List Row → List Row
  | [] => acc
  | r :: rs => sortAux (insertRow r acc) rs

/-- Model of `DataFrame.sort_values("Date")`: a stable sort by date. -/
def sortRows (l : List Row) : List Row := sortAux [] l

/-- Model of `drop_duplicates(subset=["Date"], keep="last")` applied to a
date-sorted frame: among adjacent rows of equal date, keep the later one. -/
def dedupKeepLast : List Row → List Row
  | [] => []
  | [r] => [r]
  | r :: r' :: rs =>
    if r.date = r'.date then dedupKeepLast (r' :: rs)
    else r :: dedupKeepLast (r' :: rs)

/-- The merge of `datapend` / `m_datapend` (YF.py lines 254-259, 483-487):
concatenate `[prepend, existing, append]`, sort by date, drop duplicate
dates keeping the last occurrence. -/
def stitch (prependRows existingRows appendRows : List Row) : List Row :=
  dedupKeepLast (sortRows (prependRows ++ existingRows ++ appendRows))

/-- Model of `get_next_trading_day` (YF.py lines 182-187): the smallest
trading day in `[d, d+7]`, `none` when the window has none. -/
def get_next_trading_day (isTd : Nat → Bool) (d : Nat) : Option Nat :=
  ((List.range 8).map (fun i => d + i)).find? isTd

/-- Model of `get_last_trading_day` (YF.py lines 188-193): the largest
trading day in `[d-7, d]`, `none` when the window has none. -/
def get_last_trading_day (isTd : Nat → Bool) (d : Nat) : Option Nat :=
  ((List.range 8).map (fun i => d - i)).find? isTd

/-- Events of `datapend` (YF.py lines 195-263): load and date-sort the
existing CSV (`none` if it is missing), fetch the prepend edge
`[tDateA, dateA)` when `dateA ≠ tDateA`, fetch the append edge
`[dateZ+1, tDateZ+1)` when `dateZ ≠ tDateZ`, then write the stitched frame
directly to the cache path (`combined.to_csv(csv_path, ...)`). -/
def datapend (fetch : Nat → Nat → List Row)
    (dateA dateZ tDateA tDateZ : Nat) (symbol : String) (fs : FS) :
    Option (List Ev) :=
  match fs.get (csvPath symbol) with
  | none => none
  | some csvRows =>
    let csvSorted := sortRows csvRows
    let prependRows := if dateA ≠ tDateA then fetch tDateA dateA else []
    let appendRows := if dateZ ≠ tDateZ then fetch (dateZ + 1) (tDateZ + 1) else []
    some ((if dateA ≠ tDateA then [Ev.fetchCall tDateA dateA] else [])
      ++ (if dateZ ≠ tDateZ then [Ev.fetchCall (dateZ + 1) (tDateZ + 1)] else [])
      ++ [Ev.write (csvPath symbol) (stitch prependRows csvSorted appendRows)])

/-- Events of `m_datapend` (YF.py lines 437-491): as `datapend` but the
prepend edge is fetched only when `tDateA < dateA` and the append edge only
when `tDateZ > dateZ`; the stitched frame is again written directly to the
cache path. -/
def m_datapend (fetch : Nat → Nat → List Row)
    (dateA dateZ tDateA tDateZ : Nat) (symbol : String) (fs : FS) :
    Option (List Ev) :=
  match fs.get (csvPath symbol) with
  | none => none
  | some csvRows =>
    let csvSorted := sortRows csvRows
    let prependRows := if tDateA < dateA then fetch tDateA dateA else []
    let appendRows := if dateZ < tDateZ then fetch (dateZ + 1) (tDateZ + 1) else []
    some ((if tDateA < dateA then [Ev.fetchCall tDateA dateA] else [])
      ++ (if dateZ < tDateZ then [Ev.fetchCall (dateZ + 1) (tDateZ + 1)] else [])
      ++ [Ev.write (csvPath symbol) (stitch prependRows csvSorted appendRows)])

/-- Events of `update_setup` (YF.py lines 265-327): align the desired range
to trading days; on a trusted cache, no-op exactly when both aligned bounds
equal the cached bounds, otherwise run `datapend`; on an untrusted or
missing cache, fetch the full aligned range `[tDateA, tDateZ+1)`, abort on
an empty result, otherwise back up an existing file via `cp_del` and save
the new frame with `save_data`.  The post-save verification only reads. -/
def update_setup (fetch : Nat → Nat → List Row) (isTd : Nat → Bool)
    (dateA dateZ newDateA newDateZ : Nat) (symbol : String)
    (is_valid_cached : Bool) (fs : FS) : Option (List Ev) :=
  match get_next_trading_day isTd newDateA, get_last_trading_day isTd newDateZ with
  | some tDateA, some tDateZ =>
    if is_valid_cached then
      if dateA = tDateA ∧ dateZ = tDateZ then some []
      else datapend fetch dateA dateZ tDateA tDateZ symbol fs
    else
      let df_new := fetch tDateA (tDateZ + 1)
      if df_new.isEmpty then some [Ev.fetchCall tDateA (tDateZ + 1)]
      else some ([Ev.fetchCall tDateA (tDateZ + 1)]
        ++ (if (fs.get (csvPath symbol)).isSome then cp_del symbol else [])
        ++ save_data df_new symbol)
  | _, _ => none

/-- Events of `m_update_setup` (YF.py lines 400-435): as `update_setup` but
the valid branch dispatches to `m_datapend` and the replace branch performs
no backup: it saves the freshly fetched frame over the old file. -/
def m_update_setup (fetch : Nat → Nat → List Row) (isTd : Nat → Bool)
    (dateA dateZ newDateA newDateZ : Nat) (symbol : String)
    (is_valid_cached : Bool) (fs : FS) : Option (List Ev) :=
  match get_next_trading_day isTd newDateA, get_last_trading_day isTd newDateZ with
  | some tDateA, some tDateZ =>
    if is_valid_cached then
      if dateA = tDateA ∧ dateZ = tDateZ then some []
      else m_datapend fetch dateA dateZ tDateA tDateZ symbol fs
    else
      let df_new := fetch tDateA (tDateZ + 1)
      if df_new.isEmpty then some [Ev.fetchCall tDateA (tDateZ + 1)]
      else some ([Ev.fetchCall tDateA (tDateZ + 1)] ++ save_data df_new symbol)
  | _, _ => none

/-- Absolute value on `Rat`, kept executable for concrete evaluation. -/
def ratAbs (q : Rat) : Rat := if q < 0 then -q else q

/-- The validator's absolute tolerance (YF.py line 169). -/
def tolerance : Rat := 1 / 1000000

/-- Model of `np.isclose(xs, ys, atol, rtol=0.0)` on one-dimensional data:
pointwise `|a - b| ≤ atol` under numpy broadcasting; `none` models the
error on incompatible shapes. -/
def npIscloseAtol (atol : Rat) (xs ys : List Rat) : Option (List Bool) :=
  if xs.length = ys.length then
    some (List.zipWith (fun a b => decide (ratAbs (a - b) ≤ atol)) xs ys)
  else if xs.length = 1 then
    some (ys.map (fun b => decide (ratAbs (xs.headD 0 - b) ≤ atol)))
  else if ys.length = 1 then
    some (xs.map (fun a => decide (ratAbs (a - ys.headD 0) ≤ atol)))
  else none

/-- Model of `validate_CSV_data` (YF.py lines 126-178): select the cached
and the freshly downloaded rows at the single anchor date `dateA`, compare
their `Adj Close` values with `np.isclose(..., atol=tolerance, rtol=0.0)`,
and return whether all comparisons hold (`True` = trusted). -/
def validate_CSV_data (fetch : Nat → Nat → List Row) (csvRows : List Row)
    (dateA dateZ : Nat) : Option Bool :=
  let csvAdj := (csvRows.filter (fun r => r.date = dateA)).map (fun r => r.adjClose)
  let yfAdj := ((fetch dateA dateZ).filter (fun r => r.date = dateA)).map
    (fun r => r.adjClose)
  (npIscloseAtol tolerance csvAdj yfAdj).map (fun bs => bs.all id)

/-- One cell of a raw downloaded frame: missing (`NaN`), numeric, or a
date (the index values moved into the `Date` column by `reset_index`). -/
inductive Cell where
  | na
  | num (q : Rat)
  | dateVal (d : Nat)
deriving DecidableEq, Repr

/-- A raw frame as returned by `yf.download`: column labels with their
levels (length > 1 models a `MultiIndex`), the `Date` index, and one cell
list per row aligned with the columns. -/
structure RawFrame where
  cols : List (List String)
  index : List Nat
  cells : List (List Cell)
deriving DecidableEq, Repr

/-- A flat frame after normalization: plain column names and rows. -/
structure FlatFrame where
  cols : List String
  rows : List (List Cell)
deriving DecidableEq, Repr

/-- The canonical schema of `save_data` / `_tidy` (YF.py lines 97, 247). -/
def expected : List String :=
  ["Date", "Open", "High", "Low", "Close", "Adj Close", "Volume"]

/-- The cell of a row under a named column, `Cell.na` when the column is
absent. -/
def cellAt (cols : List String) (row : List Cell) (c : String) : Cell :=
  match cols.findIdx? (fun x => x = c) with
  | some i => row.getD i Cell.na
  | none => Cell.na

/-- Model of the normalization in `save_data` (YF.py lines 92-99) and
`_tidy` (YF.py lines 241-249): an empty frame stays empty; otherwise
flatten `MultiIndex` labels to their level-0 name, move the index into a
`Date` column (`reset_index`), and keep exactly the expected columns that
are present (`df[keep]`).  Rows pass through unchanged. -/
def tidy (f : RawFrame) : FlatFrame :=
  if f.index.isEmpty then ⟨[], []⟩
  else
    let flatCols := "Date" :: f.cols.map (fun c => c.headD "")
    let fullRows := (f.index.zip f.cells).map (fun dr => Cell.dateVal dr.1 :: dr.2)
    let keep := expected.filter (fun c => flatCols.contains c)
    ⟨keep, fullRows.map (fun r => keep.map (fun c => cellAt flatCols r c))⟩

/-! Basic lemmas about the filesystem model. -/

theorem find?_filter_ne (t : FS) (p q : String) (h : q ≠ p) :
    (t.filter (fun e => ¬ e.1 = p)).find? (fun e => e.1 = q) =
      t.find? (fun e => e.1 = q) := by
  induction t with
  | nil => rfl
  | cons e t ih =>
    by_cases he : e.1 = p
    · have hq : ¬ (e.1 = q) := by
        rw [he]
        exact fun hh => h hh.symm
      rw [List.filter_cons_of_neg (by simpa using he),
        List.find?_cons_of_neg _ (by simpa using hq), ih]
    · by_cases hq : e.1 = q
      · rw [List.filter_cons_of_pos (by simpa using he),
          List.find?_cons_of_pos _ (by simpa using hq),
          List.find?_cons_of_pos _ (by simpa using hq)]
      · rw [List.filter_cons_of_pos (by simpa using he),
          List.find?_cons_of_neg _ (by simpa using hq),
          List.find?_cons_of_neg _ (by simpa using hq), ih]

theorem FS.get_del_self (fs : FS) (p : String) : (FS.del fs p).get p = none := by
  have h : (fs.filter (fun e => ¬ e.1 = p)).find? (fun e => e.1 = p) = none := by
    rw [List.find?_eq_none]
    intro x hx
    simpa using (List.mem_filter.mp hx).2
  simp [FS.get, FS.del, h]

theorem FS.get_del_ne (fs : FS) {p q : String} (h : q ≠ p) :
    (FS.del fs p).get q = fs.get q := by
  simp only [FS.get, FS.del]
  rw [find?_filter_ne fs p q h]

theorem FS.get_set_self (fs : FS) (p : String) (c : List Row) :
    (FS.set fs p c).get p = some c := by
  simp [FS.set, FS.get, List.find?]

theorem FS.get_set_ne (fs : FS) {p q : String} (c : List Row) (h : q ≠ p) :
    (FS.set fs p c).get q = fs.get q := by
  simp only [FS.set, FS.get]
  rw [List.find?_cons_of_neg _ (by simpa using fun hh => h hh.symm)]
  exact FS.get_del_ne fs h

/-! The three per-symbol paths are pairwise distinct: their lengths differ
by construction for every symbol. -/

theorem length_csvPath (s : String) : (csvPath s).length = s.length + 9 := by
  have h1 : ("data/" : String).length = 5 := rfl
  have h2 : (".csv" : String).length = 4 := rfl
  simp [csvPath, String.length_append, h1, h2]
  omega

theorem length_backupPath (s : String) : (backupPath s).length = s.length + 13 := by
  have h1 : ("data/" : String).length = 5 := rfl
  have h2 : ("_OLD.csv" : String).length = 8 := rfl
  simp [backupPath, String.length_append, h1, h2]
  omega

theorem length_tmpPath (s : String) : (tmpPath s).length = s.length + 14 := by
  have h1 : ("data/." : String).length = 6 := rfl
  have h2 : (".csv.tmp" : String).length = 8 := rfl
  simp [tmpPath, String.length_append, h1, h2]
  omega

/-! Lemmas about the stable sort and the date de-duplication. -/

/-- Date ordering on rows, the sort key of `sort_values("Date")`. -/
def dle (a b : Row) : Prop := a.date ≤ b.date

/-- Strict date ordering on rows. -/
def dlt (a b : Row) : Prop := a.date < b.date

theorem mem_insertRow {r x : Row} {l : List Row} :
    x ∈ insertRow r l ↔ x = r ∨ x ∈ l := by
  induction l with
  | nil => simp [insertRow]
  | cons y ys ih =>
    by_cases h : y.date ≤ r.date
    · simp only [insertRow, if_pos h, List.mem_cons, ih]
      tauto
    · simp only [insertRow, if_neg h, List.mem_cons]

theorem pairwise_insertRow {r : Row} {l : List Row} (h : l.Pairwise dle) :
    (insertRow r l).Pairwise dle := by
  induction l with
  | nil => simp [insertRow, List.Pairwise]
  | cons y ys ih =>
    rcases List.pairwise_cons.mp h with ⟨hy, hys⟩
    by_cases hle : y.date ≤ r.date
    · simp only [insertRow, if_pos hle]
      refine List.pairwise_cons.mpr ⟨?_, ih hys⟩
      intro a ha
      rcases mem_insertRow.mp ha with rfl | ha'
      · exact hle
      · exact hy a ha'
    · simp only [insertRow, if_neg hle]
      refine List.pairwise_cons.mpr ⟨?_, h⟩
      intro a ha
      have hr : r.date ≤ y.date := le_of_not_le hle
      rcases List.mem_cons.mp ha with rfl | ha'
      · exact hr
      · exact le_trans hr (hy a ha')

theorem filter_insertRow (d : Nat) (r : Row) {l : List Row} (h : l.Pairwise dle) :
    (insertRow r l).filter (fun x => x.date = d) =
      l.filter (fun x => x.date = d) ++ if r.date = d then [r] else [] := by
  induction l with
  | nil =>
    by_cases hr : r.date = d <;> simp [insertRow, hr, List.filter]
  | cons y ys ih =>
    rcases List.pairwise_cons.mp h with ⟨hy, hys⟩
    by_cases hle : y.date ≤ r.date
    · simp only [insertRow, if_pos hle]
      rw [List.filter_cons, List.filter_cons]
      by_cases hyd : y.date = d
      · simp [hyd, ih hys]
      · simp [hyd, ih hys]
    · simp only [insertRow, if_neg hle]
      have hry : r.date < y.date := Nat.lt_of_not_le (fun hc => hle (le_of_eq rfl |>.trans hc))
      by_cases hrd : r.date = d
      · have hnil : (y :: ys).filter (fun x => x.date = d) = [] := by
          rw [List.filter_eq_nil_iff]
          intro x hx
          have hyx : y.date ≤ x.date := by
            rcases List.mem_cons.mp hx with rfl | hx'
            · exact le_refl _
            · exact hy x hx'
          have : d < x.date := lt_of_lt_of_le (hrd ▸ hry) hyx
          simp only [decide_eq_true_eq]
          omega
        rw [List.filter_cons_of_pos (by simpa using hrd), hnil]
        simp [hrd]
      · rw [List.filter_cons_of_neg (by simpa using hrd)]
        simp [hrd]

theorem sortAux_pairwise {l : List Row} :
    ∀ {acc : List Row}, acc.Pairwise dle → (sortAux acc l).Pairwise dle := by
  induction l with
  | nil => intro acc h; simpa [sortAux] using h
  | cons r rs ih =>
    intro acc h
    simp only [sortAux]
    exact ih (pairwise_insertRow h)

theorem mem_sortAux {x : Row} {l : List Row} :
    ∀ {acc : List Row}, x ∈ sortAux acc l ↔ x ∈ acc ∨ x ∈ l := by
  induction l with
  | nil => intro acc; simp [sortAux]
  | cons r rs ih =>
    intro acc
    simp only [sortAux]
    rw [ih, mem_insertRow]
    simp only [List.mem_cons]
    tauto

theorem filter_sortAux (d : Nat) {l : List Row} :
    ∀ {acc : List Row}, acc.Pairwise dle →
      (sortAux acc l).filter (fun x => x.date = d) =
        acc.filter (fun x => x.date = d) ++ l.filter (fun x => x.date = d) := by
  induction l with
  | nil => intro acc _; simp [sortAux]
  | cons r rs ih =>
    intro acc h
    simp only [sortAux]
    rw [ih (pairwise_insertRow h), filter_insertRow d r h, List.filter_cons]
    by_cases hrd : r.date = d <;> simp [hrd]

theorem sortRows_pairwise (l : List Row) : (sortRows l).Pairwise dle :=
  sortAux_pairwise (by simp)

theorem mem_sortRows {x : Row} {l : List Row} : x ∈ sortRows l ↔ x ∈ l := by
  simp [sortRows, mem_sortAux]

theorem filter_sortRows (d : Nat) (l : List Row) :
    (sortRows l).filter (fun x => x.date = d) = l.filter (fun x => x.date = d) := by
  simpa [sortRows] using @filter_sortAux d l [] (by simp)

theorem mem_of_mem_dedup : ∀ {l : List Row} {x : Row},
    x ∈ dedupKeepLast l → x ∈ l := by
  intro l
  induction l with
  | nil => intro x hx; simp [dedupKeepLast] at hx
  | cons a t ih =>
    cases t with
    | nil => intro x hx; simpa [dedupKeepLast] using hx
    | cons b rs =>
      intro x hx
      by_cases hd : a.date = b.date
      · simp only [dedupKeepLast, if_pos hd] at hx
        exact List.mem_cons_of_mem a (ih hx)
      · simp only [dedupKeepLast, if_neg hd] at hx
        rcases List.mem_cons.mp hx with rfl | hx'
        · exact List.mem_cons_self x (b :: rs)
        · exact List.mem_cons_of_mem a (ih hx')

theorem dates_mem_dedup : ∀ {l : List Row} {d : Nat},
    d ∈ l.map (fun r => r.date) → d ∈ (dedupKeepLast l).map (fun r => r.date) := by
  intro l
  induction l with
  | nil => intro d hd; simp at hd
  | cons a t ih =>
    cases t with
    | nil => intro d hd; simpa [dedupKeepLast] using hd
    | cons b rs =>
      intro d hd
      by_cases h : a.date = b.date
      · simp only [dedupKeepLast, if_pos h]
        rcases List.mem_map.mp hd with ⟨x, hx, rfl⟩
        rcases List.mem_cons.mp hx with rfl | hx'
        · exact ih (by simp [← h])
        · exact ih (List.mem_map_of_mem _ hx')
      · simp only [dedupKeepLast, if_neg h, List.map_cons, List.mem_cons]
        rcases List.mem_map.mp hd with ⟨x, hx, rfl⟩
        rcases List.mem_cons.mp hx with rfl | hx'
        · exact Or.inl rfl
        · exact Or.inr (List.mem_map.mp (ih (List.mem_map_of_mem _ hx')) |>.elim
            (fun y hy => List.mem_map.mpr ⟨y, hy.1, hy.2⟩))

theorem dedup_dates_iff (l : List Row) (d : Nat) :
    d ∈ (dedupKeepLast l).map (fun r => r.date) ↔ d ∈ l.map (fun r => r.date) := by
  constructor
  · intro h
    rcases List.mem_map.mp h with ⟨x, hx, rfl⟩
    exact List.mem_map_of_mem _ (mem_of_mem_dedup hx)
  · exact dates_mem_dedup

theorem dedup_pairwise : ∀ {l : List Row}, l.Pairwise dle →
    (dedupKeepLast l).Pairwise dlt := by
  intro l
  induction l with
  | nil => intro _; simp [dedupKeepLast]
  | cons a t ih =>
    cases t with
    | nil => intro _; simp [dedupKeepLast, List.Pairwise]
    | cons b rs =>
      intro h
      rcases List.pairwise_cons.mp h with ⟨ha, h'⟩
      by_cases hd : a.date = b.date
      · simp only [dedupKeepLast, if_pos hd]
        exact ih h'
      · simp only [dedupKeepLast, if_neg hd]
        refine List.pairwise_cons.mpr ⟨?_, ih h'⟩
        intro x hx
        have hx' : x ∈ b :: rs := mem_of_mem_dedup hx
        have h1 : a.date ≤ b.date := ha b (List.mem_cons_self b rs)
        have h2 : b.date ≤ x.date := by
          rcases List.mem_cons.mp hx' with rfl | hxx
          · exact le_refl _
          · exact List.rel_of_pairwise_cons h' hxx
        show a.date < x.date
        omega

theorem dedup_getLast : ∀ (l : List Row), l.Pairwise dle → ∀ {r : Row},
    r ∈ dedupKeepLast l →
    (l.filter (fun x => x.date = r.date)).getLast? = some r := by
  intro l
  induction l with
  | nil => intro _ r hr; simp [dedupKeepLast] at hr
  | cons a t ih =>
    cases t with
    | nil =>
      intro _ r hr
      simp only [dedupKeepLast, List.mem_singleton] at hr
      subst hr
      simp [List.filter]
    | cons b rs =>
      intro h r hr
      rcases List.pairwise_cons.mp h with ⟨ha, h'⟩
      by_cases hd : a.date = b.date
      · simp only [dedupKeepLast, if_pos hd] at hr
        have hres := ih h' hr
        by_cases had : a.date = r.date
        · rw [List.filter_cons_of_pos (by simpa using had)]
          have hbmem : b ∈ (b :: rs).filter (fun x => x.date = r.date) :=
            List.mem_filter.mpr ⟨List.mem_cons_self b rs, by simp [← hd, had]⟩
          have hbne : (b :: rs).filter (fun x => x.date = r.date) ≠ [] := by
            intro hnil
            rw [hnil] at hbmem
            exact List.not_mem_nil b hbmem
          rcases List.exists_cons_of_ne_nil hbne with ⟨c, cs, hcc⟩
          rw [hcc, List.getLast?_cons_cons, ← hcc]
          exact hres
        · rw [List.filter_cons_of_neg (by simpa using had)]
          exact hres
      · simp only [dedupKeepLast, if_neg hd] at hr
        rcases List.mem_cons.mp hr with rfl | hr'
        · rw [List.filter_cons_of_pos (by simp)]
          have hnil : (b :: rs).filter (fun x => x.date = r.date) = [] := by
            rw [List.filter_eq_nil_iff]
            intro x hx
            have h1 : r.date ≤ b.date := ha b (List.mem_cons_self b rs)
            have h2 : b.date ≤ x.date := by
              rcases List.mem_cons.mp hx with rfl | hxx
              · exact le_refl _
              · exact List.rel_of_pairwise_cons h' hxx
            have h3 : r.date < b.date := lt_of_le_of_ne h1 hd
            simp only [decide_eq_true_eq]
            omega
          rw [hnil]
          simp
        · have hres := ih h' hr'
          have hrb : r ∈ b :: rs := mem_of_mem_dedup hr'
          have h1 : a.date < b.date := lt_of_le_of_ne (ha b (List.mem_cons_self b rs)) hd
          have h2 : b.date ≤ r.date := by
            rcases List.mem_cons.mp hrb with rfl | hxx
            · exact le_refl _
            · exact List.rel_of_pairwise_cons h' hxx
          have hne : ¬ (a.date = r.date) := by omega
          rw [List.filter_cons_of_neg (by simpa using hne)]
          exact hres

theorem mem_of_getLast?_eq {α : Type _} {l : List α} {x : α}
    (h : l.getLast? = some x) : x ∈ l := by
  have hx : x ∈ l.getLast? := by
    rw [h]
    rfl
  rcases List.mem_getLast?_eq_getLast hx with ⟨hne, rfl⟩
  exact List.getLast_mem hne

theorem getLast?_append_of_ne_nil {α : Type _} (l₁ : List α) {l₂ : List α}
    (h : l₂ ≠ []) : (l₁ ++ l₂).getLast? = l₂.getLast? := by
  rw [List.getLast?_append]
  cases hl : l₂.getLast? with
  | none => exact absurd (List.getLast?_eq_none_iff.mp hl) h
  | some x => exact Option.or_some

/-! Lemmas about the merge `stitch`. -/

theorem stitch_pairwise (p e a : List Row) : (stitch p e a).Pairwise dlt :=
  dedup_pairwise (sortRows_pairwise _)

theorem dates_sortRows (l : List Row) (d : Nat) :
    d ∈ (sortRows l).map (fun r => r.date) ↔ d ∈ l.map (fun r => r.date) := by
  constructor <;> intro h <;> rcases List.mem_map.mp h with ⟨x, hx, rfl⟩
  · exact List.mem_map_of_mem _ (mem_sortRows.mp hx)
  · exact List.mem_map_of_mem _ (mem_sortRows.mpr hx)

theorem stitch_dates (p e a : List Row) (d : Nat) :
    d ∈ (stitch p e a).map (fun r => r.date) ↔
      d ∈ (p ++ e ++ a).map (fun r => r.date) := by
  unfold stitch
  rw [dedup_dates_iff, dates_sortRows]

theorem stitch_filter_getLast (p e a : List Row) {r : Row}
    (hr : r ∈ stitch p e a) :
    ((p ++ e ++ a).filter (fun x => x.date = r.date)).getLast? = some r := by
  have h1 := dedup_getLast (sortRows (p ++ e ++ a)) (sortRows_pairwise _) hr
  rwa [filter_sortRows] at h1

/-! Lemmas about running event lists. -/

theorem runEvs_nil (fs : FS) : runEvs fs [] = fs := rfl

theorem runEvs_cons (fs : FS) (e : Ev) (evs : List Ev) :
    runEvs fs (e :: evs) = runEvs (applyEv fs e) evs := rfl

theorem runEvs_append (fs : FS) (l₁ l₂ : List Ev) :
    runEvs fs (l₁ ++ l₂) = runEvs (runEvs fs l₁) l₂ :=
  List.foldl_append applyEv fs l₁ l₂

theorem runEvs_fetchCall (fs : FS) (s t : Nat) (evs : List Ev) :
    runEvs fs (Ev.fetchCall s t :: evs) = runEvs fs evs := rfl

theorem csvPath_ne_backupPath (s : String) : csvPath s ≠ backupPath s := by
  intro h
  have := congrArg String.length h
  rw [length_csvPath, length_backupPath] at this
  omega

theorem csvPath_ne_tmpPath (s : String) : csvPath s ≠ tmpPath s := by
  intro h
  have := congrArg String.length h
  rw [length_csvPath, length_tmpPath] at this
  omega

theorem backupPath_ne_tmpPath (s : String) : backupPath s ≠ tmpPath s := by
  intro h
  have := congrArg String.length h
  rw [length_backupPath, length_tmpPath] at this
  omega

/-! Equation lemmas for the two merge procedures on an existing cache. -/

theorem datapend_eq (fetch : Nat → Nat → List Row)
    (dateA dateZ tDateA tDateZ : Nat) (symbol : String) (fs : FS)
    (csvRows : List Row) (hfs : fs.get (csvPath symbol) = some csvRows) :
    datapend fetch dateA dateZ tDateA tDateZ symbol fs =
      some ((if dateA ≠ tDateA then [Ev.fetchCall tDateA dateA] else [])
        ++ (if dateZ ≠ tDateZ then [Ev.fetchCall (dateZ + 1) (tDateZ + 1)] else [])
        ++ [Ev.write (csvPath symbol)
            (stitch (if dateA ≠ tDateA then fetch tDateA dateA else [])
              (sortRows csvRows)
              (if dateZ ≠ tDateZ then fetch (dateZ + 1) (tDateZ + 1) else []))]) := by
  simp only [datapend, hfs]

theorem m_datapend_eq (fetch : Nat → Nat → List Row)
    (dateA dateZ tDateA tDateZ : Nat) (symbol : String) (fs : FS)
    (csvRows : List Row) (hfs : fs.get (csvPath symbol) = some csvRows) :
    m_datapend fetch dateA dateZ tDateA tDateZ symbol fs =
      some ((if tDateA < dateA then [Ev.fetchCall tDateA dateA] else [])
        ++ (if dateZ < tDateZ then [Ev.fetchCall (dateZ + 1) (tDateZ + 1)] else [])
        ++ [Ev.write (csvPath symbol)
            (stitch (if tDateA < dateA then fetch tDateA dateA else [])
              (sortRows csvRows)
              (if dateZ < tDateZ then fetch (dateZ + 1) (tDateZ + 1) else []))]) := by
  simp only [m_datapend, hfs]

theorem get_runEvs_calls_write (fs : FS) (c₁ c₂ : Prop) [Decidable c₁]
    [Decidable c₂] (s₁ t₁ s₂ t₂ : Nat) (p : String) (cont : List Row) :
    (runEvs fs ((if c₁ then [Ev.fetchCall s₁ t₁] else [])
      ++ (if c₂ then [Ev.fetchCall s₂ t₂] else [])
      ++ [Ev.write p cont])).get p = some cont := by
  split <;> split <;> simp [runEvs, applyEv, FS.get_set_self]

/-- C10: the merge of `datapend` / `m_datapend` preserves every previously
cached date: a date present in the cache file before the merge still has a
row in the cache file after the merge runs against the filesystem. -/
theorem C10_merge_preserves_dates (fetch : Nat → Nat → List Row)
    (dateA dateZ tDateA tDateZ : Nat) (symbol : String) (fs : FS)
    (csvRows : List Row) (hfs : fs.get (csvPath symbol) = some csvRows) :
    (∃ evs, datapend fetch dateA dateZ tDateA tDateZ symbol fs = some evs ∧
      ∀ d, d ∈ csvRows.map (fun r => r.date) →
        d ∈ (((runEvs fs evs).get (csvPath symbol)).getD []).map (fun r => r.date))
    ∧ (∃ evs, m_datapend fetch dateA dateZ tDateA tDateZ symbol fs = some evs ∧
      ∀ d, d ∈ csvRows.map (fun r => r.date) →
        d ∈ (((runEvs fs evs).get (csvPath symbol)).getD []).map (fun r => r.date)) := by
  have hmid : ∀ (pr ar : List Row) (d : Nat), d ∈ csvRows.map (fun r => r.date) →
      d ∈ (stitch pr (sortRows csvRows) ar).map (fun r => r.date) := by
    intro pr ar d hd
    apply (stitch_dates pr (sortRows csvRows) ar d).mpr
    rw [List.map_append, List.map_append]
    refine List.mem_append.mpr (Or.inl (List.mem_append.mpr (Or.inr ?_)))
    exact (dates_sortRows csvRows d).mpr hd
  constructor
  · refine ⟨_, datapend_eq fetch dateA dateZ tDateA tDateZ symbol fs csvRows hfs, ?_⟩
    intro d hd
    rw [get_runEvs_calls_write]
    exact hmid _ _ d hd
  · refine ⟨_, m_datapend_eq fetch dateA dateZ tDateA tDateZ symbol fs csvRows hfs, ?_⟩
    intro d hd
    rw [get_runEvs_calls_write]
    exact hmid _ _ d hd

/-- C10 witness: a concrete run of the claim on a two-row cache. -/
theorem C10_witness :
    FS.get [("data/A.csv", [(⟨10, 1, 1, 1, 1, 1, 1⟩ : Row)])] (csvPath "A") =
      some [⟨10, 1, 1, 1, 1, 1, 1⟩]
    ∧ (∃ evs, datapend (fun _ _ => [⟨21, 2, 2, 2, 2, 2, 2⟩]) 10 10 10 21 "A"
        [("data/A.csv", [⟨10, 1, 1, 1, 1, 1, 1⟩])] = some evs ∧
      ∀ d, d ∈ [(⟨10, 1, 1, 1, 1, 1, 1⟩ : Row)].map (fun r => r.date) →
        d ∈ ((FS.get (runEvs [("data/A.csv", [⟨10, 1, 1, 1, 1, 1, 1⟩])] evs)
          (csvPath "A")).getD []).map (fun r => r.date)) := by
  refine ⟨by decide, ?_⟩
  exact (C10_merge_preserves_dates (fun _ _ => [⟨21, 2, 2, 2, 2, 2, 2⟩]) 10 10 10 21 "A"
    [("data/A.csv", [⟨10, 1, 1, 1, 1, 1, 1⟩])] [⟨10, 1, 1, 1, 1, 1, 1⟩] (by decide)).1

/-- C6 counterexample: a freshly fetched prepend row at an overlapping date
does not win: the merge keeps the existing cached row, because with
`keep="last"` the existing rows come after the prepended rows. -/
theorem C6_counterexample :
    datapend (fun s _ => if s = 5 then [⟨10, 2, 2, 2, 2, 2, 2⟩] else [])
      10 20 5 20 "A" [("data/A.csv", [⟨10, 1, 1, 1, 1, 1, 1⟩, ⟨20, 1, 1, 1, 1, 1, 1⟩])]
      = some [Ev.fetchCall 5 10,
        Ev.write (csvPath "A") [⟨10, 1, 1, 1, 1, 1, 1⟩, ⟨20, 1, 1, 1, 1, 1, 1⟩]]
    ∧ (⟨10, 2, 2, 2, 2, 2, 2⟩ : Row) ≠ ⟨10, 1, 1, 1, 1, 1, 1⟩ := by
  constructor
  · rfl
  · decide

/-- C6 (amended): after every merge the result is strictly sorted by date
with no duplicate dates; the merge concatenates
`[prependRows, existingRows, appendRows]`, sorts by date and de-duplicates
by date keeping the last occurrence, so at an overlapping date appended
fetched rows win over existing rows, while existing rows win over prepended
fetched rows. -/
theorem C6_merge_sorted_keep_last (p e a : List Row) :
    (stitch p e a).Pairwise dlt
    ∧ (∀ r ∈ stitch p e a, a.filter (fun x => x.date = r.date) ≠ [] → r ∈ a)
    ∧ (∀ r ∈ stitch p e a, a.filter (fun x => x.date = r.date) = [] →
        e.filter (fun x => x.date = r.date) ≠ [] → r ∈ e) := by
  refine ⟨stitch_pairwise p e a, ?_, ?_⟩
  · intro r hr hfa
    have h := stitch_filter_getLast p e a hr
    rw [List.filter_append, List.filter_append] at h
    rw [getLast?_append_of_ne_nil _ hfa] at h
    exact (List.mem_filter.mp (mem_of_getLast?_eq h)).1
  · intro r hr hfa hfe
    have h := stitch_filter_getLast p e a hr
    rw [List.filter_append, List.filter_append, hfa, List.append_nil] at h
    rw [getLast?_append_of_ne_nil _ hfe] at h
    exact (List.mem_filter.mp (mem_of_getLast?_eq h)).1

/-- C6 witness: an appended row at an overlapping date wins over the
existing cached row in a concrete merge. -/
theorem C6_witness :
    (stitch [] [⟨10, 1, 1, 1, 1, 1, 1⟩] [⟨10, 2, 2, 2, 2, 2, 2⟩]).Pairwise dlt
    ∧ (⟨10, 2, 2, 2, 2, 2, 2⟩ : Row) ∈ [(⟨10, 2, 2, 2, 2, 2, 2⟩ : Row)] := by
  refine ⟨(C6_merge_sorted_keep_last [] [⟨10, 1, 1, 1, 1, 1, 1⟩]
    [⟨10, 2, 2, 2, 2, 2, 2⟩]).1, ?_⟩
  exact (C6_merge_sorted_keep_last [] [⟨10, 1, 1, 1, 1, 1, 1⟩]
    [⟨10, 2, 2, 2, 2, 2, 2⟩]).2.1 ⟨10, 2, 2, 2, 2, 2, 2⟩ (by decide) (by decide)

/-- C5: on a prepend-only plan the provider is asked exactly for
`[desired.from, cached.from)` and on an append-only plan exactly for
`[cached.to + 1, desired.to + 1)`, in both `datapend` and `m_datapend`;
no requested day lies inside the cached range. -/
theorem C5_edge_windows (fetch : Nat → Nat → List Row)
    (dateA dateZ tDateA tDateZ : Nat) (symbol : String) (fs : FS)
    (csvRows : List Row) (hfs : fs.get (csvPath symbol) = some csvRows) :
    (tDateA < dateA → tDateZ = dateZ →
      (datapend fetch dateA dateZ tDateA tDateZ symbol fs).map fetchCalls =
        some [(tDateA, dateA)]
      ∧ (m_datapend fetch dateA dateZ tDateA tDateZ symbol fs).map fetchCalls =
        some [(tDateA, dateA)]
      ∧ ∀ d, tDateA ≤ d → d < dateA → ¬ (dateA ≤ d ∧ d ≤ dateZ))
    ∧ (tDateA = dateA → dateZ < tDateZ →
      (datapend fetch dateA dateZ tDateA tDateZ symbol fs).map fetchCalls =
        some [(dateZ + 1, tDateZ + 1)]
      ∧ (m_datapend fetch dateA dateZ tDateA tDateZ symbol fs).map fetchCalls =
        some [(dateZ + 1, tDateZ + 1)]
      ∧ ∀ d, dateZ + 1 ≤ d → d < tDateZ + 1 → ¬ (dateA ≤ d ∧ d ≤ dateZ)) := by
  constructor
  · intro h1 h2
    refine ⟨?_, ?_, by omega⟩
    · rw [datapend_eq fetch dateA dateZ tDateA tDateZ symbol fs csvRows hfs]
      have ha : dateA ≠ tDateA := by omega
      have hz : ¬ (dateZ ≠ tDateZ) := by omega
      simp [ha, hz, fetchCalls]
    · rw [m_datapend_eq fetch dateA dateZ tDateA tDateZ symbol fs csvRows hfs]
      have hz : ¬ (dateZ < tDateZ) := by omega
      simp [h1, hz, fetchCalls]
  · intro h1 h2
    refine ⟨?_, ?_, by omega⟩
    · rw [datapend_eq fetch dateA dateZ tDateA tDateZ symbol fs csvRows hfs]
      have ha : ¬ (dateA ≠ tDateA) := by omega
      have hz : dateZ ≠ tDateZ := by omega
      simp [ha, hz, fetchCalls]
    · rw [m_datapend_eq fetch dateA dateZ tDateA tDateZ symbol fs csvRows hfs]
      have ha : ¬ (tDateA < dateA) := by omega
      simp [ha, h2, fetchCalls]

/-- C5 witness: a concrete prepend-only plan fetches exactly the missing
left edge window and no covered day. -/
theorem C5_witness :
    (datapend (fun _ _ => []) 10 20 5 20 "B"
      [("data/B.csv", [(⟨10, 1, 1, 1, 1, 1, 1⟩ : Row)])]).map fetchCalls =
      some [(5, 10)]
    ∧ ¬ (10 ≤ 7 ∧ 7 ≤ 20) := by
  have h := (C5_edge_windows (fun _ _ => []) 10 20 5 20 "B"
    [("data/B.csv", [⟨10, 1, 1, 1, 1, 1, 1⟩])] [⟨10, 1, 1, 1, 1, 1, 1⟩]
    (by decide)).1 (by decide) (by decide)
  exact ⟨h.1, h.2.2 7 (by decide) (by decide)⟩

/-- C1 counterexample: trusted cache `[10, 20]`, aligned desired range
`[12, 20]` is fully contained, yet reconciliation is not a no-op: the
provider is called (on the reversed window `[12, 10)`) and the cache file
is rewritten. -/
theorem C1_counterexample :
    update_setup (fun _ _ => []) (fun _ => true) 10 20 12 20 "A" true
      [("data/A.csv", [⟨10, 1, 1, 1, 1, 1, 1⟩, ⟨20, 1, 1, 1, 1, 1, 1⟩])]
    = some [Ev.fetchCall 12 10,
        Ev.write (csvPath "A") [⟨10, 1, 1, 1, 1, 1, 1⟩, ⟨20, 1, 1, 1, 1, 1, 1⟩]]
    ∧ 10 ≤ 12 ∧ 20 ≤ 20 := by
  exact ⟨rfl, by omega, by omega⟩

/-- C1 (amended): with a trusted cache whose range contains the aligned
desired range, the run is a strict no-op (no events at all) exactly when
both aligned bounds equal the cached bounds; otherwise `datapend` still
runs — calling the provider on reversed, hence empty, edge windows and
rewriting the cache file — but the set of cached dates is preserved
exactly: no shrinking of the cached range ever occurs. -/
theorem C1_contained_no_shrink (fetch : Nat → Nat → List Row)
    (isTd : Nat → Bool) (dateA dateZ newDateA newDateZ : Nat)
    (symbol : String) (fs : FS) (csvRows : List Row) (tDateA tDateZ : Nat)
    (hfs : fs.get (csvPath symbol) = some csvRows)
    (hnext : get_next_trading_day isTd newDateA = some tDateA)
    (hlast : get_last_trading_day isTd newDateZ = some tDateZ)
    (hA : dateA ≤ tDateA) (hZ : tDateZ ≤ dateZ)
    (hfetch : ∀ s t, t ≤ s → fetch s t = []) :
    ∃ evs, update_setup fetch isTd dateA dateZ newDateA newDateZ symbol true fs
        = some evs
      ∧ ((dateA = tDateA ∧ dateZ = tDateZ) → evs = [])
      ∧ ∀ d, d ∈ ((FS.get (runEvs fs evs) (csvPath symbol)).getD []).map
            (fun r => r.date)
          ↔ d ∈ csvRows.map (fun r => r.date) := by
  simp only [update_setup, hnext, hlast, if_pos rfl]
  by_cases hb : dateA = tDateA ∧ dateZ = tDateZ
  · rw [if_pos hb]
    refine ⟨[], rfl, fun _ => rfl, ?_⟩
    intro d
    rw [runEvs_nil, hfs, Option.getD_some]
  · rw [if_neg hb]
    have hp : (if dateA ≠ tDateA then fetch tDateA dateA else []) = [] := by
      split
      · exact hfetch tDateA dateA hA
      · rfl
    have ha : (if dateZ ≠ tDateZ then fetch (dateZ + 1) (tDateZ + 1) else []) = [] := by
      split
      · exact hfetch (dateZ + 1) (tDateZ + 1) (by omega)
      · rfl
    rw [datapend_eq fetch dateA dateZ tDateA tDateZ symbol fs csvRows hfs, hp, ha]
    refine ⟨_, rfl, fun hc => absurd hc hb, ?_⟩
    intro d
    rw [get_runEvs_calls_write]
    simp only [Option.getD_some]
    rw [stitch_dates]
    simp only [List.nil_append, List.append_nil]
    exact dates_sortRows csvRows d

/-- C1 witness: a concrete strictly contained desired range, where the run
rewrites the file but every cached date is preserved. -/
theorem C1_witness :
    ∃ evs, update_setup (fun _ _ => []) (fun _ => true) 10 20 12 20 "A" true
        [("data/A.csv", [⟨10, 1, 1, 1, 1, 1, 1⟩])] = some evs
      ∧ ((10 = 12 ∧ 20 = 20) → evs = [])
      ∧ ∀ d, d ∈ ((FS.get (runEvs [("data/A.csv", [⟨10, 1, 1, 1, 1, 1, 1⟩])] evs)
            (csvPath "A")).getD []).map (fun r => r.date)
          ↔ d ∈ [(⟨10, 1, 1, 1, 1, 1, 1⟩ : Row)].map (fun r => r.date) :=
  C1_contained_no_shrink (fun _ _ => []) (fun _ => true) 10 20 12 20 "A"
    [("data/A.csv", [⟨10, 1, 1, 1, 1, 1, 1⟩])] [⟨10, 1, 1, 1, 1, 1, 1⟩] 12 20
    (by decide) (by decide) (by decide) (by omega) (by omega)
    (fun _ _ _ => rfl)

/-- C4: a full replace whose fetch over the aligned desired range returns
zero rows aborts with no mutation: the only event is the provider call, so
every file — the existing cache included — is byte-identical to before,
with no backup made and nothing deleted; in both `update_setup` and
`m_update_setup`. -/
theorem C4_empty_fetch_no_mutation (fetch : Nat → Nat → List Row)
    (isTd : Nat → Bool) (dateA dateZ newDateA newDateZ : Nat)
    (symbol : String) (fs : FS) (tDateA tDateZ : Nat)
    (hnext : get_next_trading_day isTd newDateA = some tDateA)
    (hlast : get_last_trading_day isTd newDateZ = some tDateZ)
    (hempty : fetch tDateA (tDateZ + 1) = []) :
    update_setup fetch isTd dateA dateZ newDateA newDateZ symbol false fs
      = some [Ev.fetchCall tDateA (tDateZ + 1)]
    ∧ m_update_setup fetch isTd dateA dateZ newDateA newDateZ symbol false fs
      = some [Ev.fetchCall tDateA (tDateZ + 1)]
    ∧ ∀ p, FS.get (runEvs fs [Ev.fetchCall tDateA (tDateZ + 1)]) p = FS.get fs p := by
  refine ⟨?_, ?_, fun p => rfl⟩
  · simp [update_setup, hnext, hlast, hempty]
  · simp [m_update_setup, hnext, hlast, hempty]

/-- C4 witness: a concrete empty fetch leaves the cache file untouched. -/
theorem C4_witness :
    update_setup (fun _ _ => []) (fun _ => true) 1 2 3 9 "A" false
      [("data/A.csv", [(⟨10, 1, 1, 1, 1, 1, 1⟩ : Row)])]
      = some [Ev.fetchCall 3 10]
    ∧ FS.get (runEvs [("data/A.csv", [(⟨10, 1, 1, 1, 1, 1, 1⟩ : Row)])]
        [Ev.fetchCall 3 10]) (csvPath "A")
      = FS.get [("data/A.csv", [(⟨10, 1, 1, 1, 1, 1, 1⟩ : Row)])] (csvPath "A") := by
  have h := C4_empty_fetch_no_mutation (fun _ _ => []) (fun _ => true) 1 2 3 9 "A"
    [("data/A.csv", [(⟨10, 1, 1, 1, 1, 1, 1⟩ : Row)])] 3 9
    (by decide) (by decide) rfl
  exact ⟨h.1, h.2.2 (csvPath "A")⟩

/-- C2 counterexample: after the fetch, the backup copy and the removal of
the original have run; if the new-file write then fails, the prior cache
file at its original path is gone (only the backup survives), refuting
"the prior cache file at its original path remains intact". -/
theorem C2_counterexample :
    update_setup (fun _ _ => [⟨5, 2, 2, 2, 2, 2, 2⟩]) (fun _ => true) 1 2 3 9 "A"
      false [("data/A.csv", [⟨10, 1, 1, 1, 1, 1, 1⟩])]
    = some [Ev.fetchCall 3 10, Ev.copy (csvPath "A") (backupPath "A"),
        Ev.remove (csvPath "A"), Ev.write (tmpPath "A") [⟨5, 2, 2, 2, 2, 2, 2⟩],
        Ev.rename (tmpPath "A") (csvPath "A")]
    ∧ FS.get [("data/A.csv", [⟨10, 1, 1, 1, 1, 1, 1⟩])] (csvPath "A")
      = some [⟨10, 1, 1, 1, 1, 1, 1⟩]
    ∧ FS.get (runEvs [("data/A.csv", [⟨10, 1, 1, 1, 1, 1, 1⟩])]
        [Ev.fetchCall 3 10, Ev.copy (csvPath "A") (backupPath "A"),
         Ev.remove (csvPath "A")]) (csvPath "A") = none := by
  refine ⟨rfl, rfl, ?_⟩
  decide

/-- C2 (amended): in a full replace over an existing cache the event order
is fetch, copy-to-backup, remove-original, write-temp, rename-temp, so the
backup copy completes before the new file is written; after every prefix of
the operation the old content survives at the original path or at the
backup path, and it survives at the original path up to the backup copy —
but once the original is removed (before the new-file write) it is only the
backup, not the original path, that still holds it. -/
theorem C2_replace_backup (fetch : Nat → Nat → List Row) (isTd : Nat → Bool)
    (dateA dateZ newDateA newDateZ : Nat) (symbol : String) (fs : FS)
    (oldRows : List Row) (tDateA tDateZ : Nat)
    (hfs : fs.get (csvPath symbol) = some oldRows)
    (hnext : get_next_trading_day isTd newDateA = some tDateA)
    (hlast : get_last_trading_day isTd newDateZ = some tDateZ)
    (hne : fetch tDateA (tDateZ + 1) ≠ []) :
    update_setup fetch isTd dateA dateZ newDateA newDateZ symbol false fs
      = some [Ev.fetchCall tDateA (tDateZ + 1),
          Ev.copy (csvPath symbol) (backupPath symbol),
          Ev.remove (csvPath symbol),
          Ev.write (tmpPath symbol) (fetch tDateA (tDateZ + 1)),
          Ev.rename (tmpPath symbol) (csvPath symbol)]
    ∧ (∀ k, k ≤ 2 →
        FS.get (runEvs fs (([Ev.fetchCall tDateA (tDateZ + 1),
          Ev.copy (csvPath symbol) (backupPath symbol),
          Ev.remove (csvPath symbol),
          Ev.write (tmpPath symbol) (fetch tDateA (tDateZ + 1)),
          Ev.rename (tmpPath symbol) (csvPath symbol)]).take k)) (csvPath symbol)
        = some oldRows)
    ∧ (∀ k,
        FS.get (runEvs fs (([Ev.fetchCall tDateA (tDateZ + 1),
          Ev.copy (csvPath symbol) (backupPath symbol),
          Ev.remove (csvPath symbol),
          Ev.write (tmpPath symbol) (fetch tDateA (tDateZ + 1)),
          Ev.rename (tmpPath symbol) (csvPath symbol)]).take k)) (csvPath symbol)
          = some oldRows
        ∨ FS.get (runEvs fs (([Ev.fetchCall tDateA (tDateZ + 1),
          Ev.copy (csvPath symbol) (backupPath symbol),
          Ev.remove (csvPath symbol),
          Ev.write (tmpPath symbol) (fetch tDateA (tDateZ + 1)),
          Ev.rename (tmpPath symbol) (csvPath symbol)]).take k)) (backupPath symbol)
          = some oldRows) := by
  have hie : (fetch tDateA (tDateZ + 1)).isEmpty = false := by
    cases hh : (fetch tDateA (tDateZ + 1)).isEmpty
    · rfl
    · exact absurd (List.isEmpty_iff.mp hh) hne
  have hsome : (fs.get (csvPath symbol)).isSome = true := by
    rw [hfs]
    rfl
  have hfs2 : FS.get (FS.set fs (backupPath symbol) oldRows) (csvPath symbol)
      = some oldRows := by
    rw [FS.get_set_ne fs oldRows (csvPath_ne_backupPath symbol), hfs]
  have hfs3 : FS.get (FS.del (FS.set fs (backupPath symbol) oldRows)
      (csvPath symbol)) (backupPath symbol) = some oldRows := by
    rw [FS.get_del_ne _ (fun hh => csvPath_ne_backupPath symbol hh.symm),
      FS.get_set_self]
  refine ⟨?_, ?_, ?_⟩
  · simp [update_setup, hnext, hlast, hie, hsome, cp_del, save_data]
  · intro k hk
    match k, hk with
    | 0, _ => simpa [List.take, runEvs_nil] using hfs
    | 1, _ => simpa [List.take, runEvs, applyEv] using hfs
    | 2, _ =>
      simp only [List.take, runEvs, List.foldl, applyEv, hfs]
      exact hfs2
  · intro k
    match k with
    | 0 => exact Or.inl (by simpa [List.take, runEvs_nil] using hfs)
    | 1 => exact Or.inl (by simpa [List.take, runEvs, applyEv] using hfs)
    | 2 =>
      refine Or.inl ?_
      simp only [List.take, runEvs, List.foldl, applyEv, hfs]
      exact hfs2
    | 3 =>
      refine Or.inr ?_
      simp only [List.take, runEvs, List.foldl, applyEv, hfs]
      exact hfs3
    | 4 =>
      refine Or.inr ?_
      simp only [List.take, runEvs, List.foldl, applyEv, hfs]
      rw [FS.get_set_ne _ _ (backupPath_ne_tmpPath symbol)]
      exact hfs3
    | (n + 5) =>
      refine Or.inr ?_
      simp only [List.take, List.take_nil, runEvs, List.foldl, applyEv, hfs]
      rw [FS.get_set_self]
      rw [FS.get_set_ne _ _ (fun hh => csvPath_ne_backupPath symbol hh.symm),
        FS.get_del_ne _ (backupPath_ne_tmpPath symbol),
        FS.get_set_ne _ _ (backupPath_ne_tmpPath symbol)]
      exact hfs3

/-- C2 witness: a concrete full replace over an existing cache, with the
old content surviving at the original or backup path after every prefix. -/
theorem C2_witness :
    update_setup (fun _ _ => [⟨5, 2, 2, 2, 2, 2, 2⟩]) (fun _ => true) 1 2 3 9 "B"
      false [("data/B.csv", [⟨10, 1, 1, 1, 1, 1, 1⟩])]
      = some [Ev.fetchCall 3 10, Ev.copy (csvPath "B") (backupPath "B"),
          Ev.remove (csvPath "B"),
          Ev.write (tmpPath "B") [⟨5, 2, 2, 2, 2, 2, 2⟩],
          Ev.rename (tmpPath "B") (csvPath "B")]
    ∧ (FS.get (runEvs [("data/B.csv", [⟨10, 1, 1, 1, 1, 1, 1⟩])]
        (([Ev.fetchCall 3 10, Ev.copy (csvPath "B") (backupPath "B"),
          Ev.remove (csvPath "B"),
          Ev.write (tmpPath "B") [⟨5, 2, 2, 2, 2, 2, 2⟩],
          Ev.rename (tmpPath "B") (csvPath "B")]).take 5)) (csvPath "B")
        = some [⟨10, 1, 1, 1, 1, 1, 1⟩]
      ∨ FS.get (runEvs [("data/B.csv", [⟨10, 1, 1, 1, 1, 1, 1⟩])]
        (([Ev.fetchCall 3 10, Ev.copy (csvPath "B") (backupPath "B"),
          Ev.remove (csvPath "B"),
          Ev.write (tmpPath "B") [⟨5, 2, 2, 2, 2, 2, 2⟩],
          Ev.rename (tmpPath "B") (csvPath "B")]).take 5)) (backupPath "B")
        = some [⟨10, 1, 1, 1, 1, 1, 1⟩]) := by
  have h := C2_replace_backup (fun _ _ => [⟨5, 2, 2, 2, 2, 2, 2⟩]) (fun _ => true)
    1 2 3 9 "B" [("data/B.csv", [⟨10, 1, 1, 1, 1, 1, 1⟩])]
    [⟨10, 1, 1, 1, 1, 1, 1⟩] 3 9 (by decide) (by decide) (by decide) (by decide)
  exact ⟨h.1, h.2.2 5⟩

/-- C3 counterexample: the merge path writes the final cache file directly
— the trace of `datapend` contains a write to the cache path and no rename
event at all, so the merged file is not produced via a temporary path plus
rename. -/
theorem C3_counterexample :
    datapend (fun _ _ => []) 10 20 5 20 "A"
      [("data/A.csv", [⟨10, 1, 1, 1, 1, 1, 1⟩])]
      = some [Ev.fetchCall 5 10, Ev.write (csvPath "A") [⟨10, 1, 1, 1, 1, 1, 1⟩]]
    ∧ ([Ev.fetchCall 5 10,
        Ev.write (csvPath "A") [(⟨10, 1, 1, 1, 1, 1, 1⟩ : Row)]].all
        (fun e => match e with
          | Ev.rename _ _ => false
          | _ => true)) = true := by
  exact ⟨rfl, rfl⟩

/-- C3 (amended): the full-replace writer `save_data` never writes the
final cache path directly — on a non-empty frame its whole trace is a write
to the temporary path followed by a rename onto the final path — whereas
the prepend/append merge writers `datapend` and `m_datapend` write the
merged frame directly to the final cache path. -/
theorem C3_write_discipline (rows : List Row) (symbol : String)
    (fetch : Nat → Nat → List Row) (dateA dateZ tDateA tDateZ : Nat)
    (fs : FS) (csvRows : List Row)
    (hfs : fs.get (csvPath symbol) = some csvRows) :
    (∀ c, Ev.write (csvPath symbol) c ∉ save_data rows symbol)
    ∧ (rows ≠ [] → save_data rows symbol =
        [Ev.write (tmpPath symbol) rows,
         Ev.rename (tmpPath symbol) (csvPath symbol)])
    ∧ (∃ evs c, datapend fetch dateA dateZ tDateA tDateZ symbol fs = some evs
        ∧ Ev.write (csvPath symbol) c ∈ evs)
    ∧ (∃ evs c, m_datapend fetch dateA dateZ tDateA tDateZ symbol fs = some evs
        ∧ Ev.write (csvPath symbol) c ∈ evs) := by
  refine ⟨?_, ?_, ?_, ?_⟩
  · intro c hc
    by_cases he : rows.isEmpty
    · simp [save_data, he] at hc
    · simp only [save_data, he, if_false, Bool.false_eq_true, List.mem_cons,
        List.mem_singleton] at hc
      rcases hc with hc | hc | hc
      · exact csvPath_ne_tmpPath symbol (congrArg
          (fun e => match e with
            | Ev.write p _ => p
            | _ => "") hc)
      · exact Ev.noConfusion hc
      · exact absurd hc (List.not_mem_nil _)
  · intro h
    have he : rows.isEmpty = false := by
      cases hh : rows.isEmpty
      · rfl
      · exact absurd (List.isEmpty_iff.mp hh) h
    simp [save_data, he]
  · refine ⟨_, stitch (if dateA ≠ tDateA then fetch tDateA dateA else [])
      (sortRows csvRows)
      (if dateZ ≠ tDateZ then fetch (dateZ + 1) (tDateZ + 1) else []),
      datapend_eq fetch dateA dateZ tDateA tDateZ symbol fs csvRows hfs, ?_⟩
    exact List.mem_append.mpr (Or.inr (List.mem_cons_self _ _))
  · refine ⟨_, stitch (if tDateA < dateA then fetch tDateA dateA else [])
      (sortRows csvRows)
      (if dateZ < tDateZ then fetch (dateZ + 1) (tDateZ + 1) else []),
      m_datapend_eq fetch dateA dateZ tDateA tDateZ symbol fs csvRows hfs, ?_⟩
    exact List.mem_append.mpr (Or.inr (List.mem_cons_self _ _))

/-- C3 witness: the concrete write traces of `save_data` and `datapend`. -/
theorem C3_witness :
    (∀ c, Ev.write (csvPath "A") c ∉ save_data [⟨10, 1, 1, 1, 1, 1, 1⟩] "A")
    ∧ save_data [⟨10, 1, 1, 1, 1, 1, 1⟩] "A"
      = [Ev.write (tmpPath "A") [⟨10, 1, 1, 1, 1, 1, 1⟩],
         Ev.rename (tmpPath "A") (csvPath "A")]
    ∧ (∃ evs c, datapend (fun _ _ => []) 10 20 5 20 "A"
        [("data/A.csv", [⟨10, 1, 1, 1, 1, 1, 1⟩])] = some evs
        ∧ Ev.write (csvPath "A") c ∈ evs) := by
  have h := C3_write_discipline [⟨10, 1, 1, 1, 1, 1, 1⟩] "A" (fun _ _ => [])
    10 20 5 20 [("data/A.csv", [⟨10, 1, 1, 1, 1, 1, 1⟩])]
    [⟨10, 1, 1, 1, 1, 1, 1⟩] (by decide)
  exact ⟨h.1, h.2.1 (by decide), h.2.2.1⟩

/-- When either side of the anchor-date comparison is empty (and the other
side holds at most one value), the vacuous `np.isclose` comparison yields
an all-true verdict. -/
theorem npIsclose_all_vacuous (atol : Rat) (xs ys : List Rat)
    (h : xs = [] ∨ ys = []) (hx : xs.length ≤ 1) (hy : ys.length ≤ 1) :
    (npIscloseAtol atol xs ys).map (fun bs => bs.all id) = some true := by
  rcases h with rfl | rfl
  · cases ys with
    | nil => rfl
    | cons y yt =>
      cases yt with
      | nil => rfl
      | cons z zt => simp at hy
  · cases xs with
    | nil => rfl
    | cons x xt =>
      cases xt with
      | nil => rfl
      | cons z zt => simp at hx

/-- C7 counterexample: the anchor date 3 is outside the cached range (the
cache only holds date 5), the remote does have data at 3, and the validator
reports `some true` — the cache is reported trusted; there is no distinct
indeterminate verdict. -/
theorem C7_counterexample :
    (3 ∉ ([(⟨5, 1, 1, 1, 1, 1, 1⟩ : Row)]).map (fun r => r.date))
    ∧ validate_CSV_data (fun _ _ => [⟨3, 9, 9, 9, 9, 9, 9⟩])
        [⟨5, 1, 1, 1, 1, 1, 1⟩] 3 10 = some true := by
  exact ⟨by decide, rfl⟩

/-- C7 (amended): whenever the anchor date is absent from the cached rows
or from the remote download (each side carrying at most one row at the
anchor), the comparison is vacuous and `validate_CSV_data` returns
`some true`: the case is reported trusted, never untrusted, and no distinct
indeterminate verdict exists. -/
theorem C7_missing_anchor_trusted (fetch : Nat → Nat → List Row)
    (csvRows : List Row) (dateA dateZ : Nat)
    (h : csvRows.filter (fun r => r.date = dateA) = []
      ∨ (fetch dateA dateZ).filter (fun r => r.date = dateA) = [])
    (hcsv : (csvRows.filter (fun r => r.date = dateA)).length ≤ 1)
    (hyf : ((fetch dateA dateZ).filter (fun r => r.date = dateA)).length ≤ 1) :
    validate_CSV_data fetch csvRows dateA dateZ = some true := by
  unfold validate_CSV_data
  apply npIsclose_all_vacuous
  · rcases h with h | h
    · exact Or.inl (by rw [h]; rfl)
    · exact Or.inr (by rw [h]; rfl)
  · simpa using hcsv
  · simpa using hyf

/-- C7 witness: a concrete missing-anchor case reported trusted. -/
theorem C7_witness :
    validate_CSV_data (fun _ _ => [⟨4, 9, 9, 9, 9, 9, 9⟩])
      [⟨7, 1, 1, 1, 1, 1, 1⟩] 4 10 = some true :=
  C7_missing_anchor_trusted (fun _ _ => [⟨4, 9, 9, 9, 9, 9, 9⟩])
    [⟨7, 1, 1, 1, 1, 1, 1⟩] 4 10 (Or.inl (by decide)) (by decide) (by decide)

/-- C8: with a cached and a remote row both present at the anchor date, the
verdict is decided by the adjusted close under the absolute tolerance
`1e-6` with no relative component: a difference above the tolerance yields
untrusted (`some false`), one below it yields trusted (`some true`). -/
theorem C8_tolerance_verdict (fetch : Nat → Nat → List Row)
    (csvRows : List Row) (dateA dateZ : Nat) (rc rr : Row)
    (hc : csvRows.filter (fun r => r.date = dateA) = [rc])
    (hr : (fetch dateA dateZ).filter (fun r => r.date = dateA) = [rr]) :
    (tolerance < ratAbs (rc.adjClose - rr.adjClose) →
      validate_CSV_data fetch csvRows dateA dateZ = some false)
    ∧ (ratAbs (rc.adjClose - rr.adjClose) < tolerance →
      validate_CSV_data fetch csvRows dateA dateZ = some true) := by
  constructor
  · intro hgt
    have hnle : ¬ (ratAbs (rc.adjClose - rr.adjClose) ≤ tolerance) := not_le.mpr hgt
    simp [validate_CSV_data, hc, hr, npIscloseAtol, hnle]
  · intro hlt
    simp [validate_CSV_data, hc, hr, npIscloseAtol, le_of_lt hlt]

/-- C8 witness: adjusted closes 1 and 2 differ by more than the tolerance
and the cache is reported untrusted. -/
theorem C8_witness :
    tolerance < ratAbs ((1 : Rat) - 2)
    ∧ validate_CSV_data (fun _ _ => [⟨5, 1, 1, 1, 2, 2, 1⟩])
        [⟨5, 1, 1, 1, 1, 1, 1⟩] 5 9 = some false := by
  refine ⟨by norm_num [tolerance, ratAbs], ?_⟩
  exact (C8_tolerance_verdict (fun _ _ => [⟨5, 1, 1, 1, 2, 2, 1⟩])
    [⟨5, 1, 1, 1, 1, 1, 1⟩] 5 9 ⟨5, 1, 1, 1, 1, 1, 1⟩ ⟨5, 1, 1, 1, 2, 2, 1⟩
    (by decide) (by decide)).1 (by norm_num [tolerance, ratAbs])

/-- C9 counterexample: a fetched row whose required `Close` field is
missing (`NaN`) is not excluded: normalization persists it unchanged, with
the missing value still in place. -/
theorem C9_counterexample :
    (tidy ⟨[["Open"], ["High"], ["Low"], ["Close"], ["Adj Close"], ["Volume"]],
        [5], [[Cell.num 1, Cell.num 1, Cell.num 1, Cell.na, Cell.num 1,
          Cell.num 100]]⟩).rows
      = [[Cell.dateVal 5, Cell.num 1, Cell.num 1, Cell.num 1, Cell.na,
          Cell.num 1, Cell.num 100]]
    ∧ cellAt (tidy ⟨[["Open"], ["High"], ["Low"], ["Close"], ["Adj Close"],
        ["Volume"]], [5], [[Cell.num 1, Cell.num 1, Cell.num 1, Cell.na,
          Cell.num 1, Cell.num 100]]⟩).cols
        [Cell.dateVal 5, Cell.num 1, Cell.num 1, Cell.num 1, Cell.na,
          Cell.num 1, Cell.num 100] "Close" = Cell.na := by
  exact ⟨rfl, rfl⟩

/-- C9 (amended): normalization keeps only columns of the canonical schema,
with every kept column either the `Date` index column or the flattened
level-0 name of an input column, but it performs no row-level exclusion:
every input row of a non-empty frame is persisted — rows with missing
required values included. -/
theorem C9_normalization (f : RawFrame) (h : f.cells.length = f.index.length) :
    (∀ c ∈ (tidy f).cols, c ∈ expected)
    ∧ (∀ c ∈ (tidy f).cols, c = "Date" ∨ ∃ lvl ∈ f.cols, lvl.headD "" = c)
    ∧ (tidy f).rows.length = (if f.index.isEmpty then 0 else f.index.length) := by
  by_cases he : f.index.isEmpty
  · simp [tidy, he]
  · simp only [tidy, he, if_false, Bool.false_eq_true]
    refine ⟨?_, ?_, ?_⟩
    · intro c hc
      exact (List.mem_filter.mp hc).1
    · intro c hc
      have h2 := (List.mem_filter.mp hc).2
      have h3 : c ∈ "Date" :: f.cols.map (fun c => c.headD "") := by
        simpa using h2
      rcases List.mem_cons.mp h3 with rfl | h4
      · exact Or.inl rfl
      · rcases List.mem_map.mp h4 with ⟨lvl, hlvl, rfl⟩
        exact Or.inr ⟨lvl, hlvl, rfl⟩
    · rw [List.length_map, List.length_map, List.length_zip, h, Nat.min_self]

/-- C9 witness: a concrete non-empty frame with a hierarchical column whose
row count is preserved by normalization. -/
theorem C9_witness :
    ([[Cell.num 1]] : List (List Cell)).length = ([5] : List Nat).length
    ∧ (∀ c ∈ (tidy ⟨[["Open", "AAPL"]], [5], [[Cell.num 1]]⟩).cols, c ∈ expected)
    ∧ (tidy ⟨[["Open", "AAPL"]], [5], [[Cell.num 1]]⟩).rows.length
      = (if ([5] : List Nat).isEmpty then 0 else ([5] : List Nat).length) := by
  have h := C9_normalization ⟨[["Open", "AAPL"]], [5], [[Cell.num 1]]⟩ rfl
  exact ⟨rfl, h.1, h.2.2⟩

end DataGrabber
